import Mathlib

/-!
Verification development for a byte-pair-encoding (BPE) tokenizer library
(`minbpe` style: a base tokenizer with merge/statistics primitives, a basic
byte-level tokenizer, a regex-segmented tokenizer, and a GPT-4 compatibility
layer). Python dictionaries are embedded as insertion-ordered association
lists, byte strings as `List Nat` of byte values, and text as `List Nat` of
Unicode scalar values. Fallible code returns `Except`/`Option`.
-/

set_option maxHeartbeats 1000000
set_option maxRecDepth 8000

/-- Association list lookup: returns the value of the first entry whose key
matches, mirroring Python dict lookup (keys are unique in a dict). -/
def assocFind {α β : Type} [DecidableEq α] : List (α × β) → α → Option β
  | [], _ => none
  | (k', v') :: rest, k => if k' = k then some v' else assocFind rest k

/-- Association list insert/update: mirrors Python `d[k] = v` on an
insertion-ordered dict (update in place if the key exists, else append). -/
def assocInsert {α β : Type} [DecidableEq α] : List (α × β) → α → β → List (α × β)
  | [], k, v => [(k, v)]
  | (k', v') :: rest, k, v =>
    if k' = k then (k, v) :: rest else (k', v') :: assocInsert rest k v

/-- Embeds `BaseTokenizer._merge`: in the list of integers `ids`, replace all
consecutive occurrences of `pair` with the new integer token `newToken`,
scanning left to right and consuming both matched positions (`i += 2`). -/
def merge : List Nat → (Nat × Nat) → Nat → List Nat
  | a :: b :: rest, pair, newToken =>
    if (a, b) = pair then newToken :: merge rest pair newToken
    else a :: merge (b :: rest) pair newToken
  | l, _, _ => l

/-- Loop body of `BaseTokenizer._get_stats`: bump the count of one pair,
starting at 1 when the pair is not yet present. -/
def bumpCount (acc : List ((Nat × Nat) × Nat)) (p : Nat × Nat) :
    List ((Nat × Nat) × Nat) :=
  match assocFind acc p with
  | some n => assocInsert acc p (n + 1)
  | none => assocInsert acc p 1

/-- Tail of `BaseTokenizer._get_stats`: walk the adjacent pairs of the
sequence accumulating counts in insertion order. -/
def getStatsAux : List Nat → List ((Nat × Nat) × Nat) → List ((Nat × Nat) × Nat)
  | a :: b :: rest, acc => getStatsAux (b :: rest) (bumpCount acc (a, b))
  | _, acc => acc

/-- Embeds `BaseTokenizer._get_stats`: frequencies of adjacent token pairs,
as an insertion-ordered dict. -/
def getStats (ids : List Nat) : List ((Nat × Nat) × Nat) :=
  getStatsAux ids []

/-- Keys of a stats dict, in order: models `list(stats.keys())`. -/
def statsKeys (stats : List ((Nat × Nat) × Nat)) : List (Nat × Nat) :=
  stats.map (fun e => e.1)

/-- Decidable predicate: the pair occurs somewhere as two adjacent elements
of the sequence. -/
def hasAdjPair (p : Nat × Nat) : List Nat → Bool
  | a :: b :: rest => ((a, b) = p : Bool) || hasAdjPair p (b :: rest)
  | _ => false

/-- Base byte vocabulary of size `n` built in insertion order, embedding the
`for idx in range(256): vocab[idx] = bytes([idx])` loops of the trainers and
of `BaseTokenizer._build_vocab`. -/
def baseVocabAux : Nat → List (Nat × List Nat)
  | 0 => []
  | n + 1 => baseVocabAux n ++ [(n, [n])]

/-- Base vocabulary for all 256 byte values. -/
def baseVocab : List (Nat × List Nat) := baseVocabAux 256

/-- Strict numeric order on pairs: larger left id, then larger right id. -/
def pairGt (p q : Nat × Nat) : Prop :=
  q.1 < p.1 ∨ (p.1 = q.1 ∧ q.2 < p.2)

instance (p q : Nat × Nat) : Decidable (pairGt p q) := by
  unfold pairGt; infer_instance

/-- Modelled from the spec: `_get_most_frequent_pair` is called by both
`BasicTokenizer.train` and `RegexTokenizer.train` but its definition is
absent from the repository sources. Per the spec it returns the pair with
the strictly highest count together with that count, breaking ties among
equal-count candidates by preferring the numerically greatest pair (larger
left id, then larger right id); with no pairs at all it returns no pair and
count 0. One fold step: keep the better of the running best and the
next entry. -/
def mostFrequentStep (best : Option (Nat × Nat) × Nat)
    (e : (Nat × Nat) × Nat) : Option (Nat × Nat) × Nat :=
  match best with
  | (none, _) => (some e.1, e.2)
  | (some bp, bc) =>
    if bc < e.2 ∨ (e.2 = bc ∧ pairGt e.1 bp) then (some e.1, e.2)
    else (some bp, bc)

/-- Modelled from the spec: the full scan of `_get_most_frequent_pair`
over the stats entries, in insertion order. -/
def getMostFrequentPair (stats : List ((Nat × Nat) × Nat)) :
    Option (Nat × Nat) × Nat :=
  stats.foldl mostFrequentStep (none, 0)

/-- Merge-learning loop shared by `BasicTokenizer.train` (single sequence);
`numLeft` counts the remaining iterations of `for i in range(num_merges)`,
`i` is the current iteration index. Each iteration computes pair statistics,
selects the most frequent pair, stops early when no pair remains, and
otherwise mints id `256 + i`, merges, and extends merges and vocab. -/
def trainLoop : Nat → Nat → List Nat → List ((Nat × Nat) × Nat) →
    List (Nat × List Nat) → List ((Nat × Nat) × Nat) × List (Nat × List Nat)
  | 0, _, _, merges, vocab => (merges, vocab)
  | numLeft + 1, i, ids, merges, vocab =>
    match getMostFrequentPair (getStats ids) with
    | (none, _) => (merges, vocab)
    | (some p, c) =>
      if c = 0 then (merges, vocab)
      else
        let idx := 256 + i
        trainLoop numLeft (i + 1) (merge ids p idx) (assocInsert merges p idx)
          (assocInsert vocab idx
            (((assocFind vocab p.1).getD []) ++ ((assocFind vocab p.2).getD [])))

/-- Embeds `BasicTokenizer.train` at the byte level: `textBytes` is the
UTF-8 byte sequence of the training text. Returns the learned merge table
and vocabulary, or the `ValueError` raised when `vocab_size < 256`. -/
def basicTrainBytes (textBytes : List Nat) (vocabSize : Nat) :
    Except String (List ((Nat × Nat) × Nat) × List (Nat × List Nat)) :=
  if vocabSize < 256 then .error "vocab_size must be at least 256"
  else .ok (trainLoop (vocabSize - 256) 0 textBytes [] baseVocab)

/-- Internal best-pair scan of the encode loops of
`BasicTokenizer.encode` and `RegexTokenizer._encode_chunk`: walk the pair
list tracking the pair of strictly smallest priority seen so far, where a
pair absent from the merge table has priority `float("inf")` and so never
wins the strict comparison. The accumulator starts as `None`. -/
def selectBestAux (merges : List ((Nat × Nat) × Nat)) :
    List (Nat × Nat) → Option ((Nat × Nat) × Nat) → Option ((Nat × Nat) × Nat)
  | [], best => best
  | p :: rest, best =>
    match assocFind merges p with
    | none => selectBestAux merges rest best
    | some k =>
      match best with
      | none => selectBestAux merges rest (some (p, k))
      | some (bp, bk) =>
        if k < bk then selectBestAux merges rest (some (p, k))
        else selectBestAux merges rest (some (bp, bk))

/-- Best pair of the encode loop: the pair with the smallest merge index
among the currently present pairs, or `None` when every priority is
infinite. -/
def selectBestPair (merges : List ((Nat × Nat) × Nat))
    (pairs : List (Nat × Nat)) : Option (Nat × Nat) :=
  (selectBestAux merges pairs none).map (fun e => e.1)

/-- Embeds the `while len(ids) >= 2` loop of `BasicTokenizer.encode` and
`RegexTokenizer._encode_chunk`, with explicit fuel (each merging iteration
strictly shortens `ids`, so fuel `ids.length` suffices; see the termination
theorem). A selected pair is merged only after the membership check
`if pair not in self.token_merges: break`. -/
def encodeLoop (merges : List ((Nat × Nat) × Nat)) :
    Nat → List Nat → List Nat
  | 0, ids => ids
  | fuel + 1, ids =>
    if ids.length < 2 then ids
    else
      match selectBestPair merges (statsKeys (getStats ids)) with
      | none => ids
      | some p =>
        match assocFind merges p with
        | none => ids
        | some idx => encodeLoop merges fuel (merge ids p idx)

/-- Encode a byte sequence with a merge table: the full while loop, run with
sufficient fuel. -/
def encodeIds (merges : List ((Nat × Nat) × Nat)) (ids : List Nat) : List Nat :=
  encodeLoop merges ids.length ids

/-- Embeds the vocabulary-concatenation step of `BasicTokenizer.decode`:
look up every id and concatenate the byte values; `none` models the
`KeyError` raised on an id absent from the vocabulary. -/
def decodeFlat (vocab : List (Nat × List Nat)) : List Nat → Option (List Nat)
  | [] => some []
  | idx :: rest =>
    match assocFind vocab idx, decodeFlat vocab rest with
    | some bs, some r => some (bs ++ r)
    | _, _ => none

/-- Unicode scalar values: the code points a Python `str.encode("utf-8",
errors="strict")` accepts (no surrogates, below 0x110000). -/
def ScalarValue (c : Nat) : Prop :=
  c < 0xD800 ∨ (0xE000 ≤ c ∧ c < 0x110000)

instance (c : Nat) : Decidable (ScalarValue c) := by
  unfold ScalarValue; infer_instance

/-- UTF-8 encoding of one Unicode scalar value (Python
`str.encode("utf-8")` applied to one character). -/
def utf8EncodeChar (c : Nat) : List Nat :=
  if c < 0x80 then [c]
  else if c < 0x800 then [0xC0 + c / 0x40, 0x80 + c % 0x40]
  else if c < 0x10000 then
    [0xE0 + c / 0x1000, 0x80 + (c / 0x40) % 0x40, 0x80 + c % 0x40]
  else
    [0xF0 + c / 0x40000, 0x80 + (c / 0x1000) % 0x40,
     0x80 + (c / 0x40) % 0x40, 0x80 + c % 0x40]

/-- UTF-8 encoding of a text (a list of Unicode scalar values), embedding
`text.encode("utf-8", errors="strict")`. -/
def utf8Encode (text : List Nat) : List Nat :=
  (text.map utf8EncodeChar).flatten

/-- Embeds `text_bytes.decode("utf-8", errors="replace")`: a total UTF-8
decoder that substitutes U+FFFD for each maximal invalid subpart instead of
raising, following the CPython replacement behavior (tight second-byte
ranges reject overlong forms and surrogates). -/
def utf8DecodeReplace : List Nat → List Nat
  | [] => []
  | b :: rest =>
    if b < 0x80 then b :: utf8DecodeReplace rest
    else if b < 0xC2 then 0xFFFD :: utf8DecodeReplace rest
    else if b < 0xE0 then
      match rest with
      | [] => [0xFFFD]
      | c1 :: rest1 =>
        if 0x80 ≤ c1 ∧ c1 < 0xC0 then
          ((b - 0xC0) * 0x40 + (c1 - 0x80)) :: utf8DecodeReplace rest1
        else 0xFFFD :: utf8DecodeReplace (c1 :: rest1)
    else if b < 0xF0 then
      match rest with
      | [] => [0xFFFD]
      | c1 :: rest1 =>
        if (if b = 0xE0 then 0xA0 else 0x80) ≤ c1 ∧
            c1 < (if b = 0xED then 0xA0 else 0xC0) then
          match rest1 with
          | [] => [0xFFFD]
          | c2 :: rest2 =>
            if 0x80 ≤ c2 ∧ c2 < 0xC0 then
              ((b - 0xE0) * 0x1000 + (c1 - 0x80) * 0x40 + (c2 - 0x80)) ::
                utf8DecodeReplace rest2
            else 0xFFFD :: utf8DecodeReplace (c2 :: rest2)
        else 0xFFFD :: utf8DecodeReplace (c1 :: rest1)
    else if b < 0xF5 then
      match rest with
      | [] => [0xFFFD]
      | c1 :: rest1 =>
        if (if b = 0xF0 then 0x90 else 0x80) ≤ c1 ∧
            c1 < (if b = 0xF4 then 0x90 else 0xC0) then
          match rest1 with
          | [] => [0xFFFD]
          | c2 :: rest2 =>
            if 0x80 ≤ c2 ∧ c2 < 0xC0 then
              match rest2 with
              | [] => [0xFFFD]
              | c3 :: rest3 =>
                if 0x80 ≤ c3 ∧ c3 < 0xC0 then
                  ((b - 0xF0) * 0x40000 + (c1 - 0x80) * 0x1000 +
                      (c2 - 0x80) * 0x40 + (c3 - 0x80)) ::
                    utf8DecodeReplace rest3
                else 0xFFFD :: utf8DecodeReplace (c3 :: rest3)
            else 0xFFFD :: utf8DecodeReplace (c2 :: rest2)
        else 0xFFFD :: utf8DecodeReplace (c1 :: rest1)
    else 0xFFFD :: utf8DecodeReplace rest

/-- Embeds `BasicTokenizer.train` on a text given as Unicode scalar values:
first `text.encode("utf-8")`, then the merge-learning loop. -/
def basicTrain (text : List Nat) (vocabSize : Nat) :
    Except String (List ((Nat × Nat) × Nat) × List (Nat × List Nat)) :=
  basicTrainBytes (utf8Encode text) vocabSize

/-- Embeds `BasicTokenizer.encode`: UTF-8 bytes of the text, then the
priority-based greedy merge loop. -/
def basicEncode (merges : List ((Nat × Nat) × Nat)) (text : List Nat) :
    List Nat :=
  encodeIds merges (utf8Encode text)

/-- Embeds `BasicTokenizer.decode`: concatenate the vocabulary byte values
of all ids (`none` on a missing id, the `KeyError`), then decode the bytes
as UTF-8 with replacement. -/
def basicDecode (vocab : List (Nat × List Nat)) (ids : List Nat) :
    Option (List Nat) :=
  (decodeFlat vocab ids).map utf8DecodeReplace

/-- Embeds the per-id byte value used by `RegexTokenizer.decode`: the
vocabulary value if the id is in the vocabulary, else the UTF-8 encoding of
the registered special-token literal; `[]` is never reached on ids covered
by one of the two tables. -/
def regexPartBytes (vocab : List (Nat × List Nat))
    (invSpecial : List (Nat × List Nat)) (idx : Nat) : List Nat :=
  match assocFind vocab idx with
  | some bs => bs
  | none =>
    match assocFind invSpecial idx with
    | some s => utf8Encode s
    | none => []

/-- Embeds the part-collection loop of `RegexTokenizer.decode`: for each
id, take the vocabulary byte value, else the UTF-8 encoding of the
registered special-token literal (`invSpecial` maps id to the scalar values
of the literal), else fail with the offending id (the
`ValueError(f"invalid token id: {idx}")`). -/
def regexDecodeBytes (vocab : List (Nat × List Nat))
    (invSpecial : List (Nat × List Nat)) : List Nat → Except Nat (List Nat)
  | [] => .ok []
  | idx :: rest =>
    match assocFind vocab idx with
    | some bs => (regexDecodeBytes vocab invSpecial rest).map (fun r => bs ++ r)
    | none =>
      match assocFind invSpecial idx with
      | some s =>
        (regexDecodeBytes vocab invSpecial rest).map (fun r => utf8Encode s ++ r)
      | none => .error idx

/-- Embeds `RegexTokenizer.decode` end to end: collect the byte parts, join
them, and decode as UTF-8 with replacement. -/
def regexDecode (vocab : List (Nat × List Nat))
    (invSpecial : List (Nat × List Nat)) (ids : List Nat) :
    Except Nat (List Nat) :=
  (regexDecodeBytes vocab invSpecial ids).map utf8DecodeReplace

/-- Python exception kinds observed in the embedded GPT-4 compatibility
layer code paths. -/
inductive PyError : Type
  | attributeError : PyError
  | nameError : PyError
  | valueError : Nat → PyError
  | keyError : PyError
deriving DecidableEq, Repr

/-- Embeds `GPT4Tokenizer._build_byte_shuffle`: for each byte value `i` in
0..255, map it to the rank of the single byte `bytes([i])` in the external
rank table; `keyError` models the `KeyError` on a table missing a single
byte. -/
def buildByteShuffle (ranks : List (List Nat × Nat)) :
    Except PyError (List (Nat × Nat)) :=
  (List.range 256).foldl
    (fun acc i =>
      match acc with
      | .error e => .error e
      | .ok m =>
        match assocFind ranks [i] with
        | some r => .ok (assocInsert m i r)
        | none => .error .keyError)
    (.ok [])

/-- Embeds `GPT4Tokenizer._build_inverse_byte_shuffle`: the method creates
a fresh local dict, then the loop body assigns into
`self.inverse_byte_shuffle` — an attribute that is not yet set when the
method runs in `__init__` (`selfAttr` is its current value, `none` when
unset, raising `AttributeError`) — and finally returns the untouched local
dict. The result is the pair (returned local dict, final attribute value). -/
def buildInverseByteShuffle (selfAttr : Option (List (Nat × Nat)))
    (byteShuffle : List (Nat × Nat)) :
    Except PyError (List (Nat × Nat) × List (Nat × Nat)) :=
  let localInverse : List (Nat × Nat) := []
  match byteShuffle.foldl
      (fun acc e =>
        match acc with
        | .error err => .error err
        | .ok attr =>
          match attr with
          | none => .error PyError.attributeError
          | some d => .ok (some (assocInsert d e.2 e.1)))
      (Except.ok selfAttr) with
  | .error err => .error err
  | .ok attr => .ok (localInverse, attr.getD [])

/-- Find step of `GPT4Tokenizer._byte_pair_encoding`: scan all adjacent
part pairs and return the index and rank of the pair whose concatenated
byte value has the lowest rank in the table, tracking the minimum with a
strict comparison. -/
def bpeFindMinAux (ranks : List (List Nat × Nat)) :
    List (List Nat) → Nat → Option (Nat × Nat) → Option (Nat × Nat)
  | p0 :: p1 :: rest, i, best =>
    let best' :=
      match assocFind ranks (p0 ++ p1) with
      | none => best
      | some r =>
        match best with
        | none => some (i, r)
        | some (bi, br) => if r < br then some (i, r) else some (bi, br)
    bpeFindMinAux ranks (p1 :: rest) (i + 1) best'
  | _, _, best => best

/-- Minimum-rank adjacent pair of the current parts, as (index, rank). -/
def bpeFindMin (ranks : List (List Nat × Nat)) (parts : List (List Nat)) :
    Option (Nat × Nat) :=
  bpeFindMinAux ranks parts 0 none

/-- One merge of `GPT4Tokenizer._byte_pair_encoding`: join the parts at
positions `i` and `i + 1` into one part. -/
def bpeMergeAt : List (List Nat) → Nat → List (List Nat)
  | p0 :: p1 :: rest, 0 => (p0 ++ p1) :: rest
  | p :: rest, i + 1 => p :: bpeMergeAt rest i
  | l, _ => l

/-- The `while True` loop of `GPT4Tokenizer._byte_pair_encoding`, with
fuel (each merge shortens `parts`, so `parts.length` fuel suffices): stop
when no adjacent pair is in the table or the minimum rank is not strictly
below `maxRank`; otherwise merge at the minimum-rank position. -/
def bpeLoop (ranks : List (List Nat × Nat)) (maxRank : Option Nat) :
    Nat → List (List Nat) → List (List Nat)
  | 0, parts => parts
  | fuel + 1, parts =>
    match bpeFindMin ranks parts with
    | none => parts
    | some (minIdx, minRank) =>
      match maxRank with
      | some mr =>
        if mr ≤ minRank then parts
        else bpeLoop ranks maxRank fuel (bpeMergeAt parts minIdx)
      | none => bpeLoop ranks maxRank fuel (bpeMergeAt parts minIdx)

/-- Embeds `GPT4Tokenizer._byte_pair_encoding`: split the token into
single-byte parts and merge repeatedly by minimum rank, honoring the
`max_rank` cutoff (`merges with rank >= max_rank are skipped`). -/
def bytePairEncoding (ranks : List (List Nat × Nat)) (token : List Nat)
    (maxRank : Option Nat) : List (List Nat) :=
  bpeLoop ranks maxRank token.length (token.map (fun b => [b]))

/-- Embeds `GPT4Tokenizer._recover_merges`. The loop state carries the
Python local variable `pair` (which is only assigned after the length
check succeeds): when `len(bpe_pair) != 2` the code executes
`raise ValueError(f"Expected pair to have exactly 2 elements, got
{len(pair)}")`, whose message evaluates `len(pair)` — `NameError` when
`pair` was never assigned on an earlier iteration, else a `ValueError`
reporting the stale previous value of `pair`. -/
def recoverMergesAux (ranks : List (List Nat × Nat)) :
    List (List Nat × Nat) → List ((Nat × Nat) × Nat) →
    Option (List Nat × List Nat) → Except PyError (List ((Nat × Nat) × Nat))
  | [], merges, _ => .ok merges
  | (token, rank) :: rest, merges, pairVar =>
    if token.length = 1 then recoverMergesAux ranks rest merges pairVar
    else
      match bytePairEncoding ranks token (some rank) with
      | [p0, p1] =>
        match assocFind ranks p0, assocFind ranks p1 with
        | some ix0, some ix1 =>
          recoverMergesAux ranks rest (assocInsert merges (ix0, ix1) rank)
            (some (p0, p1))
        | _, _ => .error .keyError
      | _ =>
        match pairVar with
        | none => .error .nameError
        | some (q0, q1) => .error (.valueError ([q0, q1].length))

/-- Embeds `GPT4Tokenizer._recover_merges` from the start: iterate the
external rank table in order, skipping single-byte tokens. -/
def recoverMerges (ranks : List (List Nat × Nat)) :
    Except PyError (List ((Nat × Nat) × Nat)) :=
  recoverMergesAux ranks ranks [] none

/-- Tokenizer state relevant to the model serialization codec: the
`source` field (set to the empty string by `BaseTokenizer.__init__` and
never updated anywhere in the sources), the configured split pattern of
`RegexTokenizer`, the special tokens and the merge table. -/
structure TokenizerState : Type where
  source : String
  pattern : String
  specialTokens : List (String × Nat)
  tokenMerges : List ((Nat × Nat) × Nat)

/-- Embeds `BaseTokenizer._save_model_file` as the list of lines written:
the version tag, then `self.source`, then the special-token count and
lines, then one `"<left> <right>"` line per merge in table order
(replacement ids are not stored). -/
def saveModelLines (st : TokenizerState) : List String :=
  ["minbpe v1", st.source, toString st.specialTokens.length] ++
    st.specialTokens.map (fun e => e.1 ++ " " ++ toString e.2) ++
    st.tokenMerges.map (fun e => toString e.1.1 ++ " " ++ toString e.1.2)

/-! Association list lemmas. -/

theorem assocFind_insert_self {α β : Type} [DecidableEq α]
    (l : List (α × β)) (k : α) (v : β) :
    assocFind (assocInsert l k v) k = some v := by
  induction l with
  | nil => simp [assocInsert, assocFind]
  | cons e rest ih =>
    by_cases h : e.1 = k
    · simp [assocInsert, assocFind, h]
    · simp [assocInsert, assocFind, h, ih]

theorem assocFind_insert_ne {α β : Type} [DecidableEq α]
    (l : List (α × β)) (k k' : α) (v : β) (h : k' ≠ k) :
    assocFind (assocInsert l k v) k' = assocFind l k' := by
  have hk : ¬ k = k' := fun hh => h hh.symm
  induction l with
  | nil => simp [assocInsert, assocFind, hk]
  | cons e rest ih =>
    by_cases he : e.1 = k
    · subst he
      have : ¬ e.1 = k' := hk
      simp [assocInsert, assocFind, this, hk]
    · by_cases he' : e.1 = k'
      · simp [assocInsert, assocFind, he, he', h]
      · simp [assocInsert, assocFind, he, he', ih]

theorem assocFind_insert_cases {α β : Type} [DecidableEq α]
    (l : List (α × β)) (k k' : α) (v v' : β)
    (h : assocFind (assocInsert l k v) k' = some v') :
    (k' = k ∧ v' = v) ∨ assocFind l k' = some v' := by
  by_cases hk : k' = k
  · subst hk
    rw [assocFind_insert_self] at h
    exact Or.inl ⟨rfl, (Option.some_injective _ h).symm⟩
  · rw [assocFind_insert_ne _ _ _ _ hk] at h
    exact Or.inr h

theorem assocFind_append {α β : Type} [DecidableEq α]
    (l₁ l₂ : List (α × β)) (k : α) :
    assocFind (l₁ ++ l₂) k =
      match assocFind l₁ k with
      | some v => some v
      | none => assocFind l₂ k := by
  induction l₁ with
  | nil => simp [assocFind]
  | cons e rest ih =>
    by_cases h : e.1 = k
    · simp [assocFind, h]
    · simp [assocFind, h, ih]

theorem mem_keys_of_assocFind {α β : Type} [DecidableEq α]
    (l : List (α × β)) (k : α) (v : β) (h : assocFind l k = some v) :
    (k, v) ∈ l := by
  induction l with
  | nil => simp [assocFind] at h
  | cons e rest ih =>
    obtain ⟨e1, e2⟩ := e
    by_cases he : e1 = k
    · subst he
      simp [assocFind] at h
      subst h
      exact List.mem_cons_self _ _
    · simp [assocFind, he] at h
      exact List.mem_cons_of_mem _ (ih h)

theorem mem_keys_insert {α β : Type} [DecidableEq α]
    (l : List (α × β)) (k k' : α) (v : β) :
    k' ∈ (assocInsert l k v).map Prod.fst ↔
      k' = k ∨ k' ∈ l.map Prod.fst := by
  induction l with
  | nil => simp [assocInsert]
  | cons e rest ih =>
    by_cases he : e.1 = k
    · subst he
      simp [assocInsert]
    · simp [assocInsert, he, ih]
      tauto

/-! Base vocabulary lemmas. -/

theorem assocFind_baseVocabAux (n b : Nat) :
    assocFind (baseVocabAux n) b = if b < n then some [b] else none := by
  induction n with
  | zero => simp [baseVocabAux, assocFind]
  | succ m ih =>
    rw [baseVocabAux, assocFind_append, ih]
    by_cases h1 : b < m
    · simp [h1, Nat.lt_succ_of_lt h1]
    · by_cases h2 : b = m
      · subst h2
        simp [h1, assocFind, Nat.lt_succ_self]
      · have h3 : ¬ b < m + 1 := by omega
        have h4 : ¬ m = b := fun hh => h2 hh.symm
        simp [h1, h2, h3, h4, assocFind]

theorem assocFind_baseVocab (b : Nat) :
    assocFind baseVocab b = if b < 256 then some [b] else none :=
  assocFind_baseVocabAux 256 b

/-! Merge engine lemmas. -/

theorem merge_length_le (ids : List Nat) (p : Nat × Nat) (t : Nat) :
    (merge ids p t).length ≤ ids.length := by
  induction ids, p, t using merge.induct with
  | case1 a b rest newToken ih =>
    simp [merge] at *
    omega
  | case2 a b rest pair newToken h ih =>
    simp only [merge, if_neg h, List.length_cons] at *
    omega
  | case3 l x x1 h =>
    rcases l with _ | ⟨a, _ | ⟨b, rest⟩⟩
    · simp [merge]
    · simp [merge]
    · exact absurd rfl (h a b rest)

theorem merge_eq_of_not_adj (ids : List Nat) (p : Nat × Nat) (t : Nat)
    (h : hasAdjPair p ids = false) : merge ids p t = ids := by
  induction ids, p, t using merge.induct with
  | case1 a b rest newToken ih =>
    simp [hasAdjPair] at h
  | case2 a b rest pair newToken hne ih =>
    simp only [hasAdjPair, Bool.or_eq_false_iff] at h
    simp only [merge, if_neg hne]
    rw [ih h.2]
  | case3 l x x1 h3 =>
    rcases l with _ | ⟨a, _ | ⟨b, rest⟩⟩
    · simp [merge]
    · simp [merge]
    · exact absurd rfl (h3 a b rest)

theorem merge_length_lt (ids : List Nat) (p : Nat × Nat) (t : Nat)
    (h : hasAdjPair p ids = true) : (merge ids p t).length < ids.length := by
  induction ids, p, t using merge.induct with
  | case1 a b rest newToken ih =>
    have hle := merge_length_le rest (a, b) newToken
    simp [merge] at *
    omega
  | case2 a b rest pair newToken hne ih =>
    simp only [hasAdjPair, Bool.or_eq_true, decide_eq_true_eq] at h
    rcases h with h | h
    · exact absurd h hne
    · have := ih h
      simp only [merge, if_neg hne, List.length_cons] at *
      omega
  | case3 l x x1 h3 =>
    rcases l with _ | ⟨a, _ | ⟨b, rest⟩⟩
    · simp [hasAdjPair] at h
    · simp [hasAdjPair] at h
    · exact absurd rfl (h3 a b rest)

theorem mem_merge (ids : List Nat) (p : Nat × Nat) (t : Nat) (x : Nat)
    (h : x ∈ merge ids p t) : x = t ∨ x ∈ ids := by
  induction ids, p, t using merge.induct with
  | case1 a b rest newToken ih =>
    simp only [merge, if_pos rfl] at h
    rcases List.mem_cons.mp h with h | h
    · exact Or.inl h
    · rcases ih h with h | h
      · exact Or.inl h
      · simp only [List.mem_cons]
        tauto
  | case2 a b rest pair newToken hne ih =>
    simp only [merge, if_neg hne] at h
    rcases List.mem_cons.mp h with h | h
    · simp only [List.mem_cons]
      tauto
    · rcases ih h with h | h
      · exact Or.inl h
      · simp only [List.mem_cons] at h ⊢
        tauto
  | case3 l x1 x2 h3 =>
    refine Or.inr ?_
    rcases l with _ | ⟨a, _ | ⟨b, rest⟩⟩
    · simp [merge] at h
    · simpa [merge] using h
    · exact absurd rfl (h3 a b rest)

/-! Pair statistics lemmas. -/

theorem mem_statsKeys_bumpCount (acc : List ((Nat × Nat) × Nat))
    (p q : Nat × Nat) :
    q ∈ statsKeys (bumpCount acc p) ↔ q = p ∨ q ∈ statsKeys acc := by
  unfold bumpCount statsKeys
  cases assocFind acc p with
  | none => exact mem_keys_insert acc p q 1
  | some n => exact mem_keys_insert acc p q (n + 1)

theorem mem_statsKeys_getStatsAux (ids : List Nat) :
    ∀ acc (p : Nat × Nat), p ∈ statsKeys (getStatsAux ids acc) ↔
      hasAdjPair p ids = true ∨ p ∈ statsKeys acc := by
  induction ids with
  | nil => intro acc p; simp [getStatsAux, hasAdjPair]
  | cons a tl ih =>
    cases tl with
    | nil => intro acc p; simp [getStatsAux, hasAdjPair]
    | cons b rest =>
      intro acc p
      rw [show getStatsAux (a :: b :: rest) acc =
            getStatsAux (b :: rest) (bumpCount acc (a, b)) from rfl,
          ih, mem_statsKeys_bumpCount]
      simp only [hasAdjPair, Bool.or_eq_true, decide_eq_true_eq]
      constructor
      · rintro (h | h | h)
        · exact Or.inl (Or.inr h)
        · exact Or.inl (Or.inl h.symm)
        · exact Or.inr h
      · rintro ((h | h) | h)
        · exact Or.inr (Or.inl h.symm)
        · exact Or.inl h
        · exact Or.inr (Or.inr h)

theorem mem_statsKeys_getStats (ids : List Nat) (p : Nat × Nat) :
    p ∈ statsKeys (getStats ids) ↔ hasAdjPair p ids = true := by
  rw [getStats, mem_statsKeys_getStatsAux]
  simp [statsKeys]

theorem hasAdjPair_mem (p : Nat × Nat) (ids : List Nat)
    (h : hasAdjPair p ids = true) : p.1 ∈ ids ∧ p.2 ∈ ids := by
  induction ids with
  | nil => simp [hasAdjPair] at h
  | cons a tl ih =>
    cases tl with
    | nil => simp [hasAdjPair] at h
    | cons b rest =>
      simp only [hasAdjPair, Bool.or_eq_true, decide_eq_true_eq] at h
      rcases h with h | h
      · rw [← h]
        simp
      · have := ih h
        simp only [List.mem_cons] at this ⊢
        tauto

/-! Most-frequent-pair selection lemmas. -/

/-- Dominance order used by the most-frequent-pair selection: `(p, c)`
beats `(q, cq)` when its count is at least as high and, on an exact tie,
`p` is the same pair or the numerically greater one. -/
def gmfpDom (p : Nat × Nat) (c : Nat) (q : Nat × Nat) (cq : Nat) : Prop :=
  cq ≤ c ∧ (cq = c → p = q ∨ pairGt p q)

theorem pairGt_trichotomy (p q : Nat × Nat) :
    p = q ∨ pairGt p q ∨ pairGt q p := by
  obtain ⟨p1, p2⟩ := p
  obtain ⟨q1, q2⟩ := q
  simp only [pairGt, Prod.mk.injEq]
  omega

theorem pairGt_trans (p q r : Nat × Nat)
    (h1 : pairGt p q) (h2 : pairGt q r) : pairGt p r := by
  obtain ⟨p1, p2⟩ := p
  obtain ⟨q1, q2⟩ := q
  obtain ⟨r1, r2⟩ := r
  simp only [pairGt] at *
  omega

theorem gmfpDom_trans (p : Nat × Nat) (c : Nat) (q : Nat × Nat) (d : Nat)
    (r : Nat × Nat) (e : Nat) (h1 : gmfpDom p c q d) (h2 : gmfpDom q d r e) :
    gmfpDom p c r e := by
  obtain ⟨hle1, htie1⟩ := h1
  obtain ⟨hle2, htie2⟩ := h2
  refine ⟨Nat.le_trans hle2 hle1, fun hec => ?_⟩
  have hdc : d = c := by omega
  have hed : e = d := by omega
  rcases htie1 hdc with h | h <;> rcases htie2 hed with h' | h'
  · exact Or.inl (h.trans h')
  · exact Or.inr (h ▸ h')
  · exact Or.inr (h' ▸ h)
  · exact Or.inr (pairGt_trans _ _ _ h h')

theorem mostFrequentStep_spec (acc : Option (Nat × Nat) × Nat)
    (e : (Nat × Nat) × Nat) :
    ∃ p c, mostFrequentStep acc e = (some p, c) ∧ gmfpDom p c e.1 e.2 ∧
      (∀ bp bc, acc = (some bp, bc) → gmfpDom p c bp bc) ∧
      ((p, c) = e ∨ acc = (some p, c)) := by
  obtain ⟨accp, accc⟩ := acc
  cases accp with
  | none =>
    refine ⟨e.1, e.2, rfl, ⟨le_rfl, fun _ => Or.inl rfl⟩, ?_, Or.inl rfl⟩
    intro bp bc hbc
    simp at hbc
  | some bp =>
    by_cases hc : accc < e.2 ∨ (e.2 = accc ∧ pairGt e.1 bp)
    · refine ⟨e.1, e.2, ?_, ⟨le_rfl, fun _ => Or.inl rfl⟩, ?_, Or.inl rfl⟩
      · simp [mostFrequentStep, hc]
      · intro bp' bc' hb
        obtain ⟨h1, h2⟩ := Prod.mk.injEq .. ▸ hb
        simp only [Option.some.injEq] at h1
        subst h1
        subst h2
        rcases hc with hlt | ⟨heq, hgt⟩
        · exact ⟨Nat.le_of_lt hlt, fun hh => absurd (hh ▸ hlt) (lt_irrefl _)⟩
        · exact ⟨Nat.le_of_eq heq.symm, fun _ => Or.inr hgt⟩
    · refine ⟨bp, accc, ?_, ?_, ?_, Or.inr rfl⟩
      · simp [mostFrequentStep, hc]
      · push_neg at hc
        refine ⟨hc.1, fun hh => ?_⟩
        rcases pairGt_trichotomy bp e.1 with h | h | h
        · exact Or.inl h
        · exact Or.inr h
        · exact absurd h (hc.2 hh)
      · intro bp' bc' hb
        obtain ⟨h1, h2⟩ := Prod.mk.injEq .. ▸ hb
        simp only [Option.some.injEq] at h1
        subst h1
        subst h2
        exact ⟨le_rfl, fun _ => Or.inl rfl⟩

theorem gmfpFold_spec (stats : List ((Nat × Nat) × Nat)) :
    ∀ (acc : Option (Nat × Nat) × Nat) (p : Nat × Nat) (c : Nat),
      stats.foldl mostFrequentStep acc = (some p, c) →
      ((p, c) ∈ stats ∨ acc = (some p, c)) ∧
      (∀ q cq, (q, cq) ∈ stats → gmfpDom p c q cq) ∧
      (∀ bp bc, acc = (some bp, bc) → gmfpDom p c bp bc) := by
  induction stats with
  | nil =>
    intro acc p c h
    simp only [List.foldl_nil] at h
    refine ⟨Or.inr h, ?_, ?_⟩
    · intro q cq hq
      simp at hq
    · intro bp bc hb
      rw [h] at hb
      obtain ⟨h1, h2⟩ := Prod.mk.injEq .. ▸ hb
      simp only [Option.some.injEq] at h1
      subst h1
      subst h2
      exact ⟨le_rfl, fun _ => Or.inl rfl⟩
  | cons e tl ih =>
    intro acc p c h
    simp only [List.foldl_cons] at h
    obtain ⟨p₁, c₁, hstep, hdome, hdomacc, horigin⟩ :=
      mostFrequentStep_spec acc e
    rw [hstep] at h
    obtain ⟨hmem, hdomtl, hdomstep⟩ := ih _ p c h
    have hdomp₁ : gmfpDom p c p₁ c₁ := hdomstep p₁ c₁ rfl
    refine ⟨?_, ?_, ?_⟩
    · rcases hmem with hm | hm
      · exact Or.inl (List.mem_cons_of_mem _ hm)
      · obtain ⟨h1, h2⟩ := Prod.mk.injEq .. ▸ hm
        simp only [Option.some.injEq] at h1
        rcases horigin with ho | ho
        · refine Or.inl ?_
          rw [← ho, h1, h2]
          exact List.mem_cons_self _ _
        · refine Or.inr ?_
          rw [ho, h1, h2]
    · intro q cq hq
      rcases List.mem_cons.mp hq with hq | hq
      · have hq1 : q = e.1 := by rw [← hq]
        have hq2 : cq = e.2 := by rw [← hq]
        have hd : gmfpDom p₁ c₁ q cq := by
          rw [hq1, hq2]
          exact hdome
        exact gmfpDom_trans _ _ _ _ _ _ hdomp₁ hd
      · exact hdomtl q cq hq
    · intro bp bc hb
      exact gmfpDom_trans _ _ _ _ _ _ hdomp₁ (hdomacc bp bc hb)

theorem getMostFrequentPair_spec (stats : List ((Nat × Nat) × Nat))
    (p : Nat × Nat) (c : Nat) (h : getMostFrequentPair stats = (some p, c)) :
    (p, c) ∈ stats ∧ ∀ q cq, (q, cq) ∈ stats → gmfpDom p c q cq := by
  obtain ⟨hmem, hdom, _⟩ := gmfpFold_spec stats (none, 0) p c h
  refine ⟨?_, hdom⟩
  rcases hmem with hm | hm
  · exact hm
  · simp at hm

/-! Encode-loop best-pair selection lemmas. -/

theorem selectBestAux_spec (m : List ((Nat × Nat) × Nat))
    (pairs : List (Nat × Nat)) :
    ∀ (best : Option ((Nat × Nat) × Nat)) (p : Nat × Nat) (k : Nat),
      (∀ bp bk, best = some (bp, bk) → assocFind m bp = some bk) →
      selectBestAux m pairs best = some (p, k) →
      assocFind m p = some k ∧
      (best = some (p, k) ∨ p ∈ pairs) ∧
      (∀ q j, q ∈ pairs → assocFind m q = some j → k ≤ j) ∧
      (∀ bp bk, best = some (bp, bk) → k ≤ bk) := by
  induction pairs with
  | nil =>
    intro best p k hbest h
    simp only [selectBestAux] at h
    subst h
    refine ⟨hbest p k rfl, Or.inl rfl, ?_, ?_⟩
    · intro q j hq
      simp at hq
    · intro bp bk hb
      obtain ⟨h1, h2⟩ := Prod.mk.injEq .. ▸ (Option.some_injective _ hb)
      omega
  | cons q tl ih =>
    intro best p k hbest h
    simp only [selectBestAux] at h
    cases hfq : assocFind m q with
    | none =>
      rw [hfq] at h
      obtain ⟨hfind, hmem, hmin, hbk⟩ := ih best p k hbest h
      refine ⟨hfind, ?_, ?_, hbk⟩
      · rcases hmem with hm | hm
        · exact Or.inl hm
        · exact Or.inr (List.mem_cons_of_mem _ hm)
      · intro q' j hq' hfq'
        rcases List.mem_cons.mp hq' with hq' | hq'
        · rw [hq'] at hfq'
          rw [hfq'] at hfq
          exact absurd hfq (by simp)
        · exact hmin q' j hq' hfq'
    | some kq =>
      rw [hfq] at h
      cases best with
      | none =>
        have hbest' : ∀ bp bk, some (q, kq) = some (bp, bk) →
            assocFind m bp = some bk := by
          intro bp bk hb
          obtain ⟨h1, h2⟩ := Prod.mk.injEq .. ▸ (Option.some_injective _ hb)
          rw [← h1, ← h2]
          exact hfq
        obtain ⟨hfind, hmem, hmin, hbk⟩ := ih (some (q, kq)) p k hbest' h
        refine ⟨hfind, ?_, ?_, ?_⟩
        · rcases hmem with hm | hm
          · obtain ⟨h1, h2⟩ := Prod.mk.injEq .. ▸ (Option.some_injective _ hm)
            exact Or.inr (by rw [← h1]; exact List.mem_cons_self _ _)
          · exact Or.inr (List.mem_cons_of_mem _ hm)
        · intro q' j hq' hfq'
          rcases List.mem_cons.mp hq' with hq' | hq'
          · rw [hq'] at hfq'
            rw [hfq'] at hfq
            have : j = kq := by
              have := Option.some_injective _ hfq
              omega
            rw [this]
            exact hbk q kq rfl
          · exact hmin q' j hq' hfq'
        · intro bp bk hb
          simp at hb
      | some bb =>
        obtain ⟨bp, bk⟩ := bb
        by_cases hlt : kq < bk
        · simp only [if_pos hlt] at h
          have hbest' : ∀ bp' bk', some (q, kq) = some (bp', bk') →
              assocFind m bp' = some bk' := by
            intro bp' bk' hb
            obtain ⟨h1, h2⟩ := Prod.mk.injEq .. ▸ (Option.some_injective _ hb)
            rw [← h1, ← h2]
            exact hfq
          obtain ⟨hfind, hmem, hmin, hbk'⟩ := ih (some (q, kq)) p k hbest' h
          refine ⟨hfind, ?_, ?_, ?_⟩
          · rcases hmem with hm | hm
            · obtain ⟨h1, h2⟩ := Prod.mk.injEq .. ▸ (Option.some_injective _ hm)
              exact Or.inr (by rw [← h1]; exact List.mem_cons_self _ _)
            · exact Or.inr (List.mem_cons_of_mem _ hm)
          · intro q' j hq' hfq'
            rcases List.mem_cons.mp hq' with hq' | hq'
            · rw [hq'] at hfq'
              rw [hfq'] at hfq
              have hj : j = kq := by
                have := Option.some_injective _ hfq
                omega
              rw [hj]
              exact hbk' q kq rfl
            · exact hmin q' j hq' hfq'
          · intro bp' bk' hb
            obtain ⟨h1, h2⟩ := Prod.mk.injEq .. ▸ (Option.some_injective _ hb)
            have := hbk' q kq rfl
            omega
        · simp only [if_neg hlt] at h
          obtain ⟨hfind, hmem, hmin, hbk'⟩ := ih (some (bp, bk)) p k hbest h
          refine ⟨hfind, ?_, ?_, hbk'⟩
          · rcases hmem with hm | hm
            · exact Or.inl hm
            · exact Or.inr (List.mem_cons_of_mem _ hm)
          · intro q' j hq' hfq'
            rcases List.mem_cons.mp hq' with hq' | hq'
            · rw [hq'] at hfq'
              rw [hfq'] at hfq
              have hj : j = kq := by
                have := Option.some_injective _ hfq
                omega
              have := hbk' bp bk rfl
              omega
            · exact hmin q' j hq' hfq'

theorem selectBestAux_eq_none (m : List ((Nat × Nat) × Nat))
    (pairs : List (Nat × Nat)) :
    ∀ (best : Option ((Nat × Nat) × Nat)),
      selectBestAux m pairs best = none →
      best = none ∧ ∀ q ∈ pairs, assocFind m q = none := by
  induction pairs with
  | nil =>
    intro best h
    simp only [selectBestAux] at h
    exact ⟨h, by simp⟩
  | cons q tl ih =>
    intro best h
    simp only [selectBestAux] at h
    cases hfq : assocFind m q with
    | none =>
      rw [hfq] at h
      obtain ⟨hb, htl⟩ := ih best h
      refine ⟨hb, ?_⟩
      intro q' hq'
      rcases List.mem_cons.mp hq' with hq' | hq'
      · rw [hq']
        exact hfq
      · exact htl q' hq'
    | some kq =>
      rw [hfq] at h
      cases best with
      | none =>
        obtain ⟨hb, _⟩ := ih _ h
        simp at hb
      | some bb =>
        obtain ⟨bp, bk⟩ := bb
        by_cases hlt : kq < bk
        · simp only [if_pos hlt] at h
          obtain ⟨hb, _⟩ := ih _ h
          simp at hb
        · simp only [if_neg hlt] at h
          obtain ⟨hb, _⟩ := ih _ h
          simp at hb

theorem selectBestPair_spec (m : List ((Nat × Nat) × Nat))
    (pairs : List (Nat × Nat)) (p : Nat × Nat)
    (h : selectBestPair m pairs = some p) :
    ∃ k, assocFind m p = some k ∧ p ∈ pairs ∧
      ∀ q j, q ∈ pairs → assocFind m q = some j → k ≤ j := by
  unfold selectBestPair at h
  cases haux : selectBestAux m pairs none with
  | none => rw [haux] at h; simp at h
  | some e =>
    obtain ⟨p', k⟩ := e
    rw [haux] at h
    simp only [Option.map] at h
    have hp : p' = p := Option.some_injective _ h
    subst hp
    obtain ⟨hfind, hmem, hmin, _⟩ :=
      selectBestAux_spec m pairs none p' k (by intro bp bk hb; simp at hb) haux
    rcases hmem with hm | hm
    · simp at hm
    · exact ⟨k, hfind, hm, hmin⟩

theorem selectBestPair_eq_none (m : List ((Nat × Nat) × Nat))
    (pairs : List (Nat × Nat)) (h : selectBestPair m pairs = none) :
    ∀ q ∈ pairs, assocFind m q = none := by
  unfold selectBestPair at h
  cases haux : selectBestAux m pairs none with
  | none => exact (selectBestAux_eq_none m pairs none haux).2
  | some e => rw [haux] at h; simp at h

/-! Single-step unfolding lemmas. -/

theorem merge_cons_matched (a b : Nat) (rest : List Nat) (t : Nat) :
    merge (a :: b :: rest) (a, b) t = t :: merge rest (a, b) t := by
  simp [merge]

theorem merge_cons_unmatched (a b : Nat) (rest : List Nat) (p : Nat × Nat)
    (t : Nat) (h : ¬ (a, b) = p) :
    merge (a :: b :: rest) p t = a :: merge (b :: rest) p t := by
  simp [merge, h]

theorem encodeLoop_small (m : List ((Nat × Nat) × Nat)) (fuel : Nat)
    (ids : List Nat) (h : ids.length < 2) : encodeLoop m fuel ids = ids := by
  cases fuel with
  | zero => rfl
  | succ f => rw [encodeLoop, if_pos h]

theorem encodeLoop_succ_of_none (m : List ((Nat × Nat) × Nat)) (f : Nat)
    (ids : List Nat) (hlen : ¬ ids.length < 2)
    (hsel : selectBestPair m (statsKeys (getStats ids)) = none) :
    encodeLoop m (f + 1) ids = ids := by
  rw [encodeLoop, if_neg hlen]
  simp only [hsel]

theorem encodeLoop_succ_of_not_mem (m : List ((Nat × Nat) × Nat)) (f : Nat)
    (ids : List Nat) (p : Nat × Nat) (hlen : ¬ ids.length < 2)
    (hsel : selectBestPair m (statsKeys (getStats ids)) = some p)
    (hfind : assocFind m p = none) :
    encodeLoop m (f + 1) ids = ids := by
  rw [encodeLoop, if_neg hlen]
  simp only [hsel, hfind]

theorem encodeLoop_succ_of_mem (m : List ((Nat × Nat) × Nat)) (f : Nat)
    (ids : List Nat) (p : Nat × Nat) (idx : Nat) (hlen : ¬ ids.length < 2)
    (hsel : selectBestPair m (statsKeys (getStats ids)) = some p)
    (hfind : assocFind m p = some idx) :
    encodeLoop m (f + 1) ids = encodeLoop m f (merge ids p idx) := by
  rw [encodeLoop, if_neg hlen]
  simp only [hsel, hfind]

/-! Decode and round-trip lemmas. -/

/-- Link between a merge table and a vocabulary: every recorded merge maps
a pair whose two sides have vocabulary values to an id whose vocabulary
value is their concatenation. The trainers establish this invariant. -/
def MergesVocabOk (m : List ((Nat × Nat) × Nat))
    (v : List (Nat × List Nat)) : Prop :=
  ∀ p idx, assocFind m p = some idx →
    ∃ bs0 bs1, assocFind v p.1 = some bs0 ∧ assocFind v p.2 = some bs1 ∧
      assocFind v idx = some (bs0 ++ bs1)

theorem decodeFlat_merge (v : List (Nat × List Nat)) (ids : List Nat)
    (p : Nat × Nat) (t : Nat) :
    ∀ bs0 bs1, assocFind v p.1 = some bs0 → assocFind v p.2 = some bs1 →
      assocFind v t = some (bs0 ++ bs1) →
      decodeFlat v (merge ids p t) = decodeFlat v ids := by
  induction ids, p, t using merge.induct with
  | case1 a b rest newToken ih =>
    intro bs0 bs1 h1 h2 ht
    rw [merge_cons_matched]
    rw [show decodeFlat v (newToken :: merge rest (a, b) newToken) =
      (match assocFind v newToken,
             decodeFlat v (merge rest (a, b) newToken) with
       | some bs, some r => some (bs ++ r)
       | _, _ => none) from rfl]
    rw [ih bs0 bs1 h1 h2 ht, ht]
    rw [show decodeFlat v (a :: b :: rest) =
      (match assocFind v a,
             (match assocFind v b, decodeFlat v rest with
              | some bs, some r => some (bs ++ r)
              | _, _ => none) with
       | some bs, some r => some (bs ++ r)
       | _, _ => none) from rfl]
    rw [show assocFind v a = some bs0 from h1,
        show assocFind v b = some bs1 from h2]
    cases decodeFlat v rest with
    | none => rfl
    | some r => simp
  | case2 a b rest pair newToken hne ih =>
    intro bs0 bs1 h1 h2 ht
    rw [merge_cons_unmatched a b rest pair newToken hne]
    rw [show decodeFlat v (a :: merge (b :: rest) pair newToken) =
      (match assocFind v a, decodeFlat v (merge (b :: rest) pair newToken) with
       | some bs, some r => some (bs ++ r)
       | _, _ => none) from rfl]
    rw [ih bs0 bs1 h1 h2 ht]
    rfl
  | case3 l x1 x2 h3 =>
    intro bs0 bs1 h1 h2 ht
    rcases l with _ | ⟨a, _ | ⟨b, rest⟩⟩
    · rfl
    · rfl
    · exact absurd rfl (h3 a b rest)

theorem decodeFlat_encodeLoop (m : List ((Nat × Nat) × Nat))
    (v : List (Nat × List Nat)) (hmv : MergesVocabOk m v) :
    ∀ (fuel : Nat) (ids : List Nat),
      decodeFlat v (encodeLoop m fuel ids) = decodeFlat v ids := by
  intro fuel
  induction fuel with
  | zero => intro ids; rfl
  | succ f ih =>
    intro ids
    by_cases hlen : ids.length < 2
    · rw [encodeLoop_small m _ ids hlen]
    · cases hsel : selectBestPair m (statsKeys (getStats ids)) with
      | none => rw [encodeLoop_succ_of_none m f ids hlen hsel]
      | some p =>
        cases hfind : assocFind m p with
        | none => rw [encodeLoop_succ_of_not_mem m f ids p hlen hsel hfind]
        | some idx =>
          obtain ⟨bs0, bs1, h1, h2, ht⟩ := hmv p idx hfind
          rw [encodeLoop_succ_of_mem m f ids p idx hlen hsel hfind,
            ih, decodeFlat_merge v ids p idx bs0 bs1 h1 h2 ht]

theorem decodeFlat_of_bytes (v : List (Nat × List Nat)) (bytes : List Nat)
    (h : ∀ b ∈ bytes, assocFind v b = some [b]) :
    decodeFlat v bytes = some bytes := by
  induction bytes with
  | nil => rfl
  | cons b rest ih =>
    rw [show decodeFlat v (b :: rest) =
      (match assocFind v b, decodeFlat v rest with
       | some bs, some r => some (bs ++ r)
       | _, _ => none) from rfl]
    rw [h b (List.mem_cons_self _ _), ih (fun x hx => h x (List.mem_cons_of_mem _ hx))]
    simp

/-! Encode-loop fuel lemmas. -/

theorem encodeLoop_fuel_irrel (m : List ((Nat × Nat) × Nat)) :
    ∀ (fuel₁ fuel₂ : Nat) (ids : List Nat),
      ids.length ≤ fuel₁ → ids.length ≤ fuel₂ →
      encodeLoop m fuel₁ ids = encodeLoop m fuel₂ ids := by
  intro fuel₁
  induction fuel₁ with
  | zero =>
    intro fuel₂ ids h1 h2
    have : ids.length < 2 := by omega
    rw [encodeLoop_small m 0 ids this, encodeLoop_small m fuel₂ ids this]
  | succ f ih =>
    intro fuel₂ ids h1 h2
    by_cases hlen : ids.length < 2
    · rw [encodeLoop_small m _ ids hlen, encodeLoop_small m fuel₂ ids hlen]
    · cases fuel₂ with
      | zero => omega
      | succ f2 =>
        cases hsel : selectBestPair m (statsKeys (getStats ids)) with
        | none =>
          rw [encodeLoop_succ_of_none m f ids hlen hsel,
            encodeLoop_succ_of_none m f2 ids hlen hsel]
        | some p =>
          cases hfind : assocFind m p with
          | none =>
            rw [encodeLoop_succ_of_not_mem m f ids p hlen hsel hfind,
              encodeLoop_succ_of_not_mem m f2 ids p hlen hsel hfind]
          | some idx =>
            rw [encodeLoop_succ_of_mem m f ids p idx hlen hsel hfind,
              encodeLoop_succ_of_mem m f2 ids p idx hlen hsel hfind]
            obtain ⟨k, _, hmemp, _⟩ :=
              selectBestPair_spec m (statsKeys (getStats ids)) p hsel
            have hadj : hasAdjPair p ids = true :=
              (mem_statsKeys_getStats ids p).mp hmemp
            have hlt := merge_length_lt ids p idx hadj
            exact ih f2 (merge ids p idx) (by omega) (by omega)

theorem encodeLoop_fuel_ge (m : List ((Nat × Nat) × Nat)) (fuel : Nat)
    (ids : List Nat) (h : ids.length ≤ fuel) :
    encodeLoop m fuel ids = encodeIds m ids :=
  encodeLoop_fuel_irrel m fuel ids.length ids h le_rfl

/-! Training-loop step lemmas. -/

theorem trainLoop_succ_of_none (n i : Nat) (ids : List Nat)
    (m : List ((Nat × Nat) × Nat)) (v : List (Nat × List Nat)) (c : Nat)
    (hg : getMostFrequentPair (getStats ids) = (none, c)) :
    trainLoop (n + 1) i ids m v = (m, v) := by
  rw [trainLoop]
  simp only [hg]

theorem trainLoop_succ_of_zero (n i : Nat) (ids : List Nat)
    (m : List ((Nat × Nat) × Nat)) (v : List (Nat × List Nat)) (p : Nat × Nat)
    (hg : getMostFrequentPair (getStats ids) = (some p, 0)) :
    trainLoop (n + 1) i ids m v = (m, v) := by
  rw [trainLoop]
  simp only [hg]
  simp

theorem trainLoop_succ_of_pos (n i : Nat) (ids : List Nat)
    (m : List ((Nat × Nat) × Nat)) (v : List (Nat × List Nat)) (p : Nat × Nat)
    (c : Nat) (hg : getMostFrequentPair (getStats ids) = (some p, c))
    (hc : ¬ c = 0) :
    trainLoop (n + 1) i ids m v =
      trainLoop n (i + 1) (merge ids p (256 + i)) (assocInsert m p (256 + i))
        (assocInsert v (256 + i)
          (((assocFind v p.1).getD []) ++ ((assocFind v p.2).getD []))) := by
  rw [trainLoop]
  simp only [hg, if_neg hc]

/-! Trainer invariant lemmas. -/

/-- The vocabulary maps every byte value below 256 to its single byte. -/
def BaseOk (v : List (Nat × List Nat)) : Prop :=
  ∀ b, b < 256 → assocFind v b = some [b]

/-- All vocabulary keys lie below the next id to be minted. -/
def KeysBounded (v : List (Nat × List Nat)) (n : Nat) : Prop :=
  ∀ k bs, assocFind v k = some bs → k < n

/-- Every id of the working sequence has a vocabulary value. -/
def Covered (v : List (Nat × List Nat)) (ids : List Nat) : Prop :=
  ∀ x ∈ ids, ∃ bs, assocFind v x = some bs

theorem trainLoop_inv :
    ∀ (numLeft i : Nat) (ids : List Nat) (m : List ((Nat × Nat) × Nat))
      (v : List (Nat × List Nat)),
      BaseOk v → KeysBounded v (256 + i) → Covered v ids →
      MergesVocabOk m v →
      BaseOk (trainLoop numLeft i ids m v).2 ∧
        MergesVocabOk (trainLoop numLeft i ids m v).1
          (trainLoop numLeft i ids m v).2 := by
  intro numLeft
  induction numLeft with
  | zero =>
    intro i ids m v hB hK hC hM
    exact ⟨hB, hM⟩
  | succ n ih =>
    intro i ids m v hB hK hC hM
    cases hg : getMostFrequentPair (getStats ids) with
    | mk popt c =>
      cases popt with
      | none =>
        rw [trainLoop_succ_of_none n i ids m v c hg]
        exact ⟨hB, hM⟩
      | some p =>
        by_cases hc0 : c = 0
        · subst hc0
          rw [trainLoop_succ_of_zero n i ids m v p hg]
          exact ⟨hB, hM⟩
        · rw [trainLoop_succ_of_pos n i ids m v p c hg hc0]
          obtain ⟨hmem, _⟩ := getMostFrequentPair_spec (getStats ids) p c hg
          have hkey : p ∈ statsKeys (getStats ids) :=
            List.mem_map.mpr ⟨(p, c), hmem, rfl⟩
          have hadj : hasAdjPair p ids = true :=
            (mem_statsKeys_getStats ids p).mp hkey
          obtain ⟨hp1, hp2⟩ := hasAdjPair_mem p ids hadj
          obtain ⟨bs0, hbs0⟩ := hC p.1 hp1
          obtain ⟨bs1, hbs1⟩ := hC p.2 hp2
          rw [hbs0, hbs1]
          simp only [Option.getD_some]
          have hk1 : p.1 < 256 + i := hK p.1 bs0 hbs0
          have hk2 : p.2 < 256 + i := hK p.2 bs1 hbs1
          have hfresh : ∀ k bs, assocFind v k = some bs → k ≠ 256 + i :=
            fun k bs hf => Nat.ne_of_lt (hK k bs hf)
          have hB' : BaseOk (assocInsert v (256 + i) (bs0 ++ bs1)) := by
            intro b hb
            rw [assocFind_insert_ne v _ b _ (by omega)]
            exact hB b hb
          have hK' : KeysBounded (assocInsert v (256 + i) (bs0 ++ bs1))
              (256 + (i + 1)) := by
            intro k bs hf
            rcases assocFind_insert_cases v _ k _ _ hf with ⟨hkk, _⟩ | hold
            · omega
            · have := hK k bs hold
              omega
          have hC' : Covered (assocInsert v (256 + i) (bs0 ++ bs1))
              (merge ids p (256 + i)) := by
            intro x hx
            rcases mem_merge ids p (256 + i) x hx with hx' | hx'
            · exact ⟨bs0 ++ bs1, by rw [hx']; exact assocFind_insert_self ..⟩
            · obtain ⟨bs, hbs⟩ := hC x hx'
              have : x ≠ 256 + i := hfresh x bs hbs
              exact ⟨bs, by rw [assocFind_insert_ne v _ x _ this]; exact hbs⟩
          have hM' : MergesVocabOk (assocInsert m p (256 + i))
              (assocInsert v (256 + i) (bs0 ++ bs1)) := by
            intro q j hq
            rcases assocFind_insert_cases m p q (256 + i) j hq with
              ⟨hqp, hj⟩ | hold
            · subst hqp
              refine ⟨bs0, bs1, ?_, ?_, ?_⟩
              · rw [assocFind_insert_ne v _ q.1 _ (by omega)]
                exact hbs0
              · rw [assocFind_insert_ne v _ q.2 _ (by omega)]
                exact hbs1
              · rw [hj]
                exact assocFind_insert_self ..
            · obtain ⟨cs0, cs1, hc0', hc1', hcj⟩ := hM q j hold
              have hq1 := hK q.1 cs0 hc0'
              have hq2 := hK q.2 cs1 hc1'
              have hqj := hK j _ hcj
              refine ⟨cs0, cs1, ?_, ?_, ?_⟩
              · rw [assocFind_insert_ne v _ q.1 _ (by omega)]
                exact hc0'
              · rw [assocFind_insert_ne v _ q.2 _ (by omega)]
                exact hc1'
              · rw [assocFind_insert_ne v _ j _ (by omega)]
                exact hcj
          exact ih (i + 1) (merge ids p (256 + i)) _ _ hB' hK' hC' hM'

theorem basicTrainBytes_inv (textBytes : List Nat) (vocabSize : Nat)
    (m : List ((Nat × Nat) × Nat)) (v : List (Nat × List Nat))
    (hbytes : ∀ b ∈ textBytes, b < 256)
    (h : basicTrainBytes textBytes vocabSize = .ok (m, v)) :
    BaseOk v ∧ MergesVocabOk m v := by
  unfold basicTrainBytes at h
  by_cases hvs : vocabSize < 256
  · rw [if_pos hvs] at h
    exact absurd h (by simp)
  · rw [if_neg hvs] at h
    have hmv : (m, v) = trainLoop (vocabSize - 256) 0 textBytes [] baseVocab := by
      have := Except.ok.injEq .. ▸ h
      exact (Except.ok.inj h).symm
    have hB : BaseOk baseVocab := by
      intro b hb
      rw [assocFind_baseVocab, if_pos hb]
    have hK : KeysBounded baseVocab (256 + 0) := by
      intro k bs hf
      rw [assocFind_baseVocab] at hf
      by_cases hk : k < 256
      · omega
      · rw [if_neg hk] at hf
        simp at hf
    have hC : Covered baseVocab textBytes := by
      intro x hx
      exact ⟨[x], hB x (hbytes x hx)⟩
    have hM : MergesVocabOk [] baseVocab := by
      intro q j hq
      simp [assocFind] at hq
    obtain ⟨hB', hM'⟩ :=
      trainLoop_inv (vocabSize - 256) 0 textBytes [] baseVocab hB hK hC hM
    rw [← hmv] at hB' hM'
    exact ⟨hB', hM'⟩

/-! UTF-8 codec lemmas. -/

theorem utf8DecodeReplace_encodeChar (c : Nat) (h : ScalarValue c)
    (rest : List Nat) :
    utf8DecodeReplace (utf8EncodeChar c ++ rest) = c :: utf8DecodeReplace rest := by
  have hs : c < 0xD800 ∨ (0xE000 ≤ c ∧ c < 0x110000) := h
  unfold utf8EncodeChar
  by_cases h1 : c < 0x80
  · rw [if_pos h1]
    simp only [List.cons_append, List.nil_append]
    rw [utf8DecodeReplace.eq_def]
    simp only []
    rw [if_pos h1]
  · by_cases h2 : c < 0x800
    · rw [if_neg h1, if_pos h2]
      simp only [List.cons_append, List.nil_append]
      rw [utf8DecodeReplace.eq_def]
      simp only []
      rw [if_neg (show ¬ (0xC0 + c / 0x40 < 0x80) by omega),
          if_neg (show ¬ (0xC0 + c / 0x40 < 0xC2) by omega),
          if_pos (show 0xC0 + c / 0x40 < 0xE0 by omega),
          if_pos (show 0x80 ≤ 0x80 + c % 0x40 ∧ 0x80 + c % 0x40 < 0xC0 by omega)]
      congr 1
      omega
    · by_cases h3 : c < 0x10000
      · rw [if_neg h1, if_neg h2, if_pos h3]
        simp only [List.cons_append, List.nil_append]
        rw [utf8DecodeReplace.eq_def]
        simp only []
        rw [if_neg (show ¬ (0xE0 + c / 0x1000 < 0x80) by omega),
            if_neg (show ¬ (0xE0 + c / 0x1000 < 0xC2) by omega),
            if_neg (show ¬ (0xE0 + c / 0x1000 < 0xE0) by omega),
            if_pos (show 0xE0 + c / 0x1000 < 0xF0 by omega),
            if_pos (show
              (if 0xE0 + c / 0x1000 = 0xE0 then 0xA0 else 0x80) ≤
                  0x80 + c / 0x40 % 0x40 ∧
                0x80 + c / 0x40 % 0x40 <
                  (if 0xE0 + c / 0x1000 = 0xED then 0xA0 else 0xC0) by
              split_ifs <;> omega),
            if_pos (show 0x80 ≤ 0x80 + c % 0x40 ∧ 0x80 + c % 0x40 < 0xC0 by
              omega)]
        congr 1
        omega
      · rw [if_neg h1, if_neg h2, if_neg h3]
        have h4 : c < 0x110000 := by omega
        simp only [List.cons_append, List.nil_append]
        rw [utf8DecodeReplace.eq_def]
        simp only []
        rw [if_neg (show ¬ (0xF0 + c / 0x40000 < 0x80) by omega),
            if_neg (show ¬ (0xF0 + c / 0x40000 < 0xC2) by omega),
            if_neg (show ¬ (0xF0 + c / 0x40000 < 0xE0) by omega),
            if_neg (show ¬ (0xF0 + c / 0x40000 < 0xF0) by omega),
            if_pos (show 0xF0 + c / 0x40000 < 0xF5 by omega),
            if_pos (show
              (if 0xF0 + c / 0x40000 = 0xF0 then 0x90 else 0x80) ≤
                  0x80 + c / 0x1000 % 0x40 ∧
                0x80 + c / 0x1000 % 0x40 <
                  (if 0xF0 + c / 0x40000 = 0xF4 then 0x90 else 0xC0) by
              split_ifs <;> omega),
            if_pos (show 0x80 ≤ 0x80 + c / 0x40 % 0x40 ∧
              0x80 + c / 0x40 % 0x40 < 0xC0 by omega),
            if_pos (show 0x80 ≤ 0x80 + c % 0x40 ∧ 0x80 + c % 0x40 < 0xC0 by
              omega)]
        congr 1
        omega

theorem utf8DecodeReplace_encode (text : List Nat)
    (h : ∀ c ∈ text, ScalarValue c) :
    utf8DecodeReplace (utf8Encode text) = text := by
  induction text with
  | nil => rfl
  | cons c tl ih =>
    rw [show utf8Encode (c :: tl) = utf8EncodeChar c ++ utf8Encode tl from by
      simp [utf8Encode]]
    rw [utf8DecodeReplace_encodeChar c (h c (List.mem_cons_self _ _)),
      ih (fun x hx => h x (List.mem_cons_of_mem _ hx))]

theorem utf8EncodeChar_lt_256 (c : Nat) (h : c < 0x110000) :
    ∀ b ∈ utf8EncodeChar c, b < 256 := by
  intro b hb
  unfold utf8EncodeChar at hb
  split_ifs at hb <;> fin_cases hb <;> omega

theorem utf8Encode_lt_256 (text : List Nat) (h : ∀ c ∈ text, ScalarValue c) :
    ∀ b ∈ utf8Encode text, b < 256 := by
  intro b hb
  unfold utf8Encode at hb
  obtain ⟨bs, hbs, hbbs⟩ := List.mem_flatten.mp hb
  obtain ⟨c, hc, hcbs⟩ := List.mem_map.mp hbs
  have hsc : ScalarValue c := h c hc
  have : c < 0x110000 := by
    rcases hsc with h' | h' <;> omega
  exact utf8EncodeChar_lt_256 c this b (hcbs ▸ hbbs)

/-! Regex decode lemmas. -/

theorem regexDecodeBytes_ok (vocab invSpecial : List (Nat × List Nat)) :
    ∀ ids : List Nat,
      (∀ idx ∈ ids,
        (assocFind vocab idx).isSome ∨ (assocFind invSpecial idx).isSome) →
      regexDecodeBytes vocab invSpecial ids =
        .ok ((ids.map (regexPartBytes vocab invSpecial)).flatten) := by
  intro ids
  induction ids with
  | nil => intro _; rfl
  | cons idx rest ih =>
    intro h
    have hrest := ih (fun x hx => h x (List.mem_cons_of_mem _ hx))
    cases hfv : assocFind vocab idx with
    | some bs =>
      rw [show regexDecodeBytes vocab invSpecial (idx :: rest) =
        (match assocFind vocab idx with
         | some bs => (regexDecodeBytes vocab invSpecial rest).map
             (fun r => bs ++ r)
         | none =>
           match assocFind invSpecial idx with
           | some s => (regexDecodeBytes vocab invSpecial rest).map
               (fun r => utf8Encode s ++ r)
           | none => .error idx) from rfl]
      rw [hfv, hrest]
      simp only [List.map_cons, List.flatten_cons, Except.map]
      rw [show regexPartBytes vocab invSpecial idx = bs from by
        unfold regexPartBytes
        rw [hfv]]
    | none =>
      cases hfs : assocFind invSpecial idx with
      | some s =>
        rw [show regexDecodeBytes vocab invSpecial (idx :: rest) =
          (match assocFind vocab idx with
           | some bs => (regexDecodeBytes vocab invSpecial rest).map
               (fun r => bs ++ r)
           | none =>
             match assocFind invSpecial idx with
             | some s => (regexDecodeBytes vocab invSpecial rest).map
                 (fun r => utf8Encode s ++ r)
             | none => .error idx) from rfl]
        rw [hfv, hfs, hrest]
        simp only [List.map_cons, List.flatten_cons, Except.map]
        rw [show regexPartBytes vocab invSpecial idx = utf8Encode s from by
          unfold regexPartBytes
          rw [hfv, hfs]]
      | none =>
        have := h idx (List.mem_cons_self _ _)
        rw [hfv, hfs] at this
        simp at this

theorem regexDecodeBytes_error (vocab invSpecial : List (Nat × List Nat)) :
    ∀ (ids : List Nat) (e : Nat),
      regexDecodeBytes vocab invSpecial ids = .error e →
      e ∈ ids ∧ assocFind vocab e = none ∧ assocFind invSpecial e = none := by
  intro ids
  induction ids with
  | nil =>
    intro e h
    exact absurd h (by simp [regexDecodeBytes])
  | cons idx rest ih =>
    intro e h
    rw [show regexDecodeBytes vocab invSpecial (idx :: rest) =
      (match assocFind vocab idx with
       | some bs => (regexDecodeBytes vocab invSpecial rest).map
           (fun r => bs ++ r)
       | none =>
         match assocFind invSpecial idx with
         | some s => (regexDecodeBytes vocab invSpecial rest).map
             (fun r => utf8Encode s ++ r)
         | none => .error idx) from rfl] at h
    cases hfv : assocFind vocab idx with
    | some bs =>
      rw [hfv] at h
      cases hr : regexDecodeBytes vocab invSpecial rest with
      | ok r => rw [hr] at h; simp [Except.map] at h
      | error e' =>
        rw [hr] at h
        simp only [Except.map] at h
        have he : e' = e := by
          have := Except.error.inj h
          omega
        obtain ⟨hm, h1, h2⟩ := ih e (he ▸ hr)
        exact ⟨List.mem_cons_of_mem _ hm, h1, h2⟩
    | none =>
      rw [hfv] at h
      cases hfs : assocFind invSpecial idx with
      | some s =>
        rw [hfs] at h
        cases hr : regexDecodeBytes vocab invSpecial rest with
        | ok r => rw [hr] at h; simp [Except.map] at h
        | error e' =>
          rw [hr] at h
          simp only [Except.map] at h
          have he : e' = e := by
            have := Except.error.inj h
            omega
          obtain ⟨hm, h1, h2⟩ := ih e (he ▸ hr)
          exact ⟨List.mem_cons_of_mem _ hm, h1, h2⟩
      | none =>
        rw [hfs] at h
        have he : idx = e := Except.error.inj h
        subst he
        exact ⟨List.mem_cons_self _ _, hfv, hfs⟩

theorem regexDecodeBytes_error_of_absent
    (vocab invSpecial : List (Nat × List Nat)) :
    ∀ ids : List Nat,
      (∃ idx ∈ ids,
        assocFind vocab idx = none ∧ assocFind invSpecial idx = none) →
      ∃ e, regexDecodeBytes vocab invSpecial ids = .error e := by
  intro ids
  induction ids with
  | nil =>
    intro h
    obtain ⟨idx, hm, _⟩ := h
    simp at hm
  | cons idx rest ih =>
    intro h
    obtain ⟨w, hw, hw1, hw2⟩ := h
    rw [show regexDecodeBytes vocab invSpecial (idx :: rest) =
      (match assocFind vocab idx with
       | some bs => (regexDecodeBytes vocab invSpecial rest).map
           (fun r => bs ++ r)
       | none =>
         match assocFind invSpecial idx with
         | some s => (regexDecodeBytes vocab invSpecial rest).map
             (fun r => utf8Encode s ++ r)
         | none => .error idx) from rfl]
    by_cases hwi : w = idx
    · subst hwi
      rw [hw1, hw2]
      exact ⟨w, rfl⟩
    · have hwrest : w ∈ rest := by
        rcases List.mem_cons.mp hw with h' | h'
        · exact absurd h' hwi
        · exact h'
      obtain ⟨e, he⟩ := ih ⟨w, hwrest, hw1, hw2⟩
      cases hfv : assocFind vocab idx with
      | some bs =>
        rw [he]
        exact ⟨e, rfl⟩
      | none =>
        cases hfs : assocFind invSpecial idx with
        | some s =>
          rw [he]
          exact ⟨e, rfl⟩
        | none => exact ⟨idx, rfl⟩

instance {ε α : Type} [DecidableEq ε] [DecidableEq α] : DecidableEq (Except ε α)
  | .ok a, .ok b => by
    cases h : decide (a = b) with
    | true => exact isTrue (by rw [of_decide_eq_true h])
    | false => exact isFalse (by intro hh; cases hh; simp at h)
  | .ok _, .error _ => isFalse (by intro hh; cases hh)
  | .error _, .ok _ => isFalse (by intro hh; cases hh)
  | .error e, .error f => by
    cases h : decide (e = f) with
    | true => exact isTrue (by rw [of_decide_eq_true h])
    | false => exact isFalse (by intro hh; cases hh; simp at h)

/-! Claim theorems. -/

/-- C1: for every trained tokenizer (any training text and target size) and
every input text, decoding the encoding of the text returns the text on the
ordinary, non-special-token path: `decode(encode(text)) == text`. Text is a
list of Unicode scalar values; encoding converts it to UTF-8 bytes and runs
the greedy merge loop, decoding concatenates vocabulary byte values and
decodes UTF-8 with replacement. -/
theorem claim1_decode_encode_roundtrip
    (trainText : List Nat) (vocabSize : Nat) (text : List Nat)
    (htrain : ∀ c ∈ trainText, ScalarValue c)
    (htext : ∀ c ∈ text, ScalarValue c)
    (m : List ((Nat × Nat) × Nat)) (v : List (Nat × List Nat))
    (h : basicTrain trainText vocabSize = .ok (m, v)) :
    basicDecode v (basicEncode m text) = some text := by
  have hbytes := utf8Encode_lt_256 trainText htrain
  obtain ⟨hB, hM⟩ :=
    basicTrainBytes_inv (utf8Encode trainText) vocabSize m v hbytes h
  unfold basicDecode basicEncode encodeIds
  rw [decodeFlat_encodeLoop m v hM,
    decodeFlat_of_bytes v (utf8Encode text)
      (fun b hb => hB b (utf8Encode_lt_256 text htext b hb))]
  simp only [Option.map]
  rw [utf8DecodeReplace_encode text htext]

theorem claim1_witness :
    basicDecode (assocInsert baseVocab 256 [97, 97])
        (basicEncode [((97, 97), 256)] [98, 97, 97]) = some [98, 97, 97] :=
  claim1_decode_encode_roundtrip [97, 97, 97, 97] 257 [98, 97, 97]
    (by decide) (by decide) [((97, 97), 256)]
    (assocInsert baseVocab 256 [97, 97]) (by decide)

/-- C2: training on the UTF-8 bytes of `"aaabdaaabac"` (scalar values
97 97 97 98 100 97 97 97 98 97 99) with target vocabulary size 259 (3
merges) and encoding the same string yields exactly `[258, 100, 258, 97,
99]`, and decoding that sequence returns the original string. -/
theorem claim2_wikipedia_example :
    (basicTrain [97, 97, 97, 98, 100, 97, 97, 97, 98, 97, 99] 259).map
        (fun mv => basicEncode mv.1
          [97, 97, 97, 98, 100, 97, 97, 97, 98, 97, 99]) =
      .ok [258, 100, 258, 97, 99] ∧
    (basicTrain [97, 97, 97, 98, 100, 97, 97, 97, 98, 97, 99] 259).map
        (fun mv => basicDecode mv.2 [258, 100, 258, 97, 99]) =
      .ok (some [97, 97, 97, 98, 100, 97, 97, 97, 98, 97, 99]) := by
  constructor
  · decide
  · decide

/-- C3: the merge operation replaces every non-overlapping left-to-right
occurrence of the pair in a single pass, consuming both matched positions
and never rescanning the inserted id: on a run of `2n + 1` (respectively
`2n`) copies of `a`, merging `(a, a) → t` yields `n` copies of `t`
followed by one leftover `a` (respectively exactly `n` copies of `t`); in
particular `(97, 97) → 256` on `[97, 97, 97]` gives `[256, 97]`. -/
theorem claim3_merge_nonoverlap :
    (∀ (a t n : Nat), merge (List.replicate (2 * n + 1) a) (a, a) t =
        List.replicate n t ++ [a]) ∧
    (∀ (a t n : Nat), merge (List.replicate (2 * n) a) (a, a) t =
        List.replicate n t) ∧
    merge [97, 97, 97] (97, 97) 256 = [256, 97] ∧
    merge [1, 2, 3, 1, 2] (1, 2) 4 = [4, 3, 4] := by
  have heven : ∀ (a t n : Nat), merge (List.replicate (2 * n) a) (a, a) t =
      List.replicate n t := by
    intro a t n
    induction n with
    | zero => simp [merge]
    | succ k ih =>
      have hrep : List.replicate (2 * (k + 1)) a =
          a :: a :: List.replicate (2 * k) a := by
        rw [show 2 * (k + 1) = (2 * k) + 1 + 1 from by omega]
        rw [List.replicate_succ, List.replicate_succ]
      rw [hrep, merge_cons_matched, ih, List.replicate_succ]
  have hodd : ∀ (a t n : Nat), merge (List.replicate (2 * n + 1) a) (a, a) t =
      List.replicate n t ++ [a] := by
    intro a t n
    induction n with
    | zero => simp [merge]
    | succ k ih =>
      have hrep : List.replicate (2 * (k + 1) + 1) a =
          a :: a :: List.replicate (2 * k + 1) a := by
        rw [show 2 * (k + 1) + 1 = (2 * k + 1) + 1 + 1 from by omega]
        rw [List.replicate_succ, List.replicate_succ]
      rw [hrep, merge_cons_matched, ih, List.replicate_succ, List.cons_append]
  exact ⟨hodd, heven, by decide, by decide⟩

/-- C4: at every training iteration the trainer selects, among the
adjacent pairs of the current sequence (the entries of the computed pair
statistics), a pair of maximal count, breaking ties among equal-count
candidates by preferring the numerically greatest pair (larger left id,
then larger right id). `_get_most_frequent_pair` is modelled from the spec
because its definition is absent from the repository sources. -/
theorem claim4_most_frequent_pair_selection
    (ids : List Nat) (p : Nat × Nat) (c : Nat)
    (h : getMostFrequentPair (getStats ids) = (some p, c)) :
    (p, c) ∈ getStats ids ∧
      ∀ q cq, (q, cq) ∈ getStats ids →
        cq ≤ c ∧ (cq = c → p = q ∨ pairGt p q) := by
  obtain ⟨hmem, hdom⟩ := getMostFrequentPair_spec (getStats ids) p c h
  exact ⟨hmem, fun q cq hq => hdom q cq hq⟩

theorem claim4_witness :
    ((98, 97), 2) ∈ getStats [97, 98, 97, 98, 97] :=
  (claim4_most_frequent_pair_selection [97, 98, 97, 98, 97] (98, 97) 2
    (by decide)).1

/-- C5: the encode loop never applies a merge for a pair absent from the
merge table: a selected pair always is a table member of minimal merge id
among the adjacent pairs currently present; when no present pair is in the
table the selection is `None`; and the loop stops as soon as fewer than
two ids remain or no mergeable pair is selected, otherwise it recurses
exactly on the merged sequence. -/
theorem claim5_encode_membership_guard :
    (∀ (m : List ((Nat × Nat) × Nat)) (pairs : List (Nat × Nat))
        (p : Nat × Nat),
      selectBestPair m pairs = some p →
      ∃ k, assocFind m p = some k ∧ p ∈ pairs ∧
        ∀ q j, q ∈ pairs → assocFind m q = some j → k ≤ j) ∧
    (∀ (m : List ((Nat × Nat) × Nat)) (pairs : List (Nat × Nat)),
      selectBestPair m pairs = none → ∀ q ∈ pairs, assocFind m q = none) ∧
    (∀ (m : List ((Nat × Nat) × Nat)) (fuel : Nat) (ids : List Nat),
      ids.length < 2 → encodeLoop m fuel ids = ids) ∧
    (∀ (m : List ((Nat × Nat) × Nat)) (fuel : Nat) (ids : List Nat),
      ¬ ids.length < 2 →
      selectBestPair m (statsKeys (getStats ids)) = none →
      encodeLoop m (fuel + 1) ids = ids) ∧
    (∀ (m : List ((Nat × Nat) × Nat)) (fuel : Nat) (ids : List Nat)
        (p : Nat × Nat) (idx : Nat),
      ¬ ids.length < 2 →
      selectBestPair m (statsKeys (getStats ids)) = some p →
      assocFind m p = some idx →
      encodeLoop m (fuel + 1) ids = encodeLoop m fuel (merge ids p idx)) :=
  ⟨selectBestPair_spec, selectBestPair_eq_none, encodeLoop_small,
    encodeLoop_succ_of_none, encodeLoop_succ_of_mem⟩

theorem claim5_witness :
    ∃ k, assocFind [((97, 98), 256)] (97, 98) = some k ∧
      (97, 98) ∈ [(98, 97), (97, 98)] ∧
      ∀ q j, q ∈ [(98, 97), (97, 98)] →
        assocFind [((97, 98), 256)] q = some j → k ≤ j :=
  claim5_encode_membership_guard.1 [((97, 98), 256)] [(98, 97), (97, 98)]
    (97, 98) (by decide)

/-- C6: regex-tokenizer decode fails with an invalid-token-id error naming
an offending id exactly when some id of the input is absent from both the
vocabulary and the registered special-token table; otherwise it returns
the UTF-8 decoding (with replacement, never raising) of the concatenated
byte values. -/
theorem claim6_decode_error_iff
    (vocab invSpecial : List (Nat × List Nat)) (ids : List Nat) :
    ((∃ e, regexDecode vocab invSpecial ids = .error e) ↔
      ∃ idx ∈ ids,
        assocFind vocab idx = none ∧ assocFind invSpecial idx = none) ∧
    (∀ e, regexDecode vocab invSpecial ids = .error e →
      e ∈ ids ∧ assocFind vocab e = none ∧ assocFind invSpecial e = none) ∧
    ((∀ idx ∈ ids,
        (assocFind vocab idx).isSome ∨ (assocFind invSpecial idx).isSome) →
      regexDecode vocab invSpecial ids =
        .ok (utf8DecodeReplace
          ((ids.map (regexPartBytes vocab invSpecial)).flatten))) := by
  have herr : ∀ e, regexDecode vocab invSpecial ids = .error e →
      regexDecodeBytes vocab invSpecial ids = .error e := by
    intro e he
    unfold regexDecode at he
    cases hr : regexDecodeBytes vocab invSpecial ids with
    | ok r =>
      rw [hr] at he
      simp [Except.map] at he
    | error e' =>
      rw [hr] at he
      simp only [Except.map] at he
      have hee : e' = e := Except.error.inj he
      rw [← hee]
  refine ⟨⟨?_, ?_⟩, ?_, ?_⟩
  · rintro ⟨e, he⟩
    obtain ⟨hm, h1, h2⟩ :=
      regexDecodeBytes_error vocab invSpecial ids e (herr e he)
    exact ⟨e, hm, h1, h2⟩
  · intro habs
    obtain ⟨e, he⟩ :=
      regexDecodeBytes_error_of_absent vocab invSpecial ids habs
    refine ⟨e, ?_⟩
    unfold regexDecode
    rw [he]
    rfl
  · intro e he
    exact regexDecodeBytes_error vocab invSpecial ids e (herr e he)
  · intro hall
    unfold regexDecode
    rw [regexDecodeBytes_ok vocab invSpecial ids hall]
    rfl

theorem claim6_witness :
    regexDecode [(97, [97])] [(300, [65])] [97, 300] =
      .ok (utf8DecodeReplace
        (([97, 300].map (regexPartBytes [(97, [97])] [(300, [65])])).flatten)) :=
  (claim6_decode_error_iff [(97, [97])] [(300, [65])] [97, 300]).2.2 (by decide)

/-- C7: evaluation of the inverse-byte-shuffle builder at the failing
input. The claim says the stored inverse map is the exact inverse of the
forward byte permutation; in the code, `_build_inverse_byte_shuffle`
assigns into `self.inverse_byte_shuffle` before that attribute exists
(raising `AttributeError` during `__init__` on any nonempty forward map,
here the identity permutation on 0..255), and even with the attribute
pre-set it returns its untouched empty local dict, so the stored inverse
would be empty. -/
theorem claim7_inverse_byte_shuffle_bug :
    buildInverseByteShuffle none ((List.range 256).map (fun i => (i, i))) =
      .error .attributeError ∧
    (buildInverseByteShuffle (some [])
        ((List.range 256).map (fun i => (i, i)))).map (fun r => r.1) =
      .ok [] := by
  constructor
  · decide
  · decide

/-- C8: evaluation of rank recovery at failing inputs. The claim says a
token that does not reduce to exactly two parts causes a corruption/format
error; the code reaches the `raise ValueError` statement but its message
evaluates `len(pair)` with `pair` unbound, so the first failing token
raises `NameError` instead (first conjunct), and a failure after one
successful recovery raises a `ValueError` reporting the stale previous
pair length 2, not the actual part count 3 (second conjunct); a
well-formed table still recovers its merge (third conjunct). -/
theorem claim8_recover_merges_error_bug :
    recoverMerges [([97], 0), ([98], 1), ([99], 2), ([97, 98, 99], 3)] =
      .error .nameError ∧
    recoverMerges [([97], 0), ([98], 1), ([97, 98], 2), ([120], 3),
        ([121], 4), ([122], 5), ([120, 121, 122], 6)] =
      .error (.valueError 2) ∧
    recoverMerges [([97], 0), ([98], 1), ([97, 98], 2)] = .ok [((0, 1), 2)] := by
  refine ⟨?_, ?_, ?_⟩
  · decide
  · decide
  · decide

/-- C9: evaluation of the model-file writer at the failing input. The
claim says line 2 of the persisted file is the configured split-pattern
string; the code writes `self.source` there, a field that `__init__` sets
to the empty string and nothing ever updates, so for a tokenizer
configured with any nonempty pattern (here `"p"`) line 2 is `""` and not
the pattern. -/
theorem claim9_saved_pattern_line_bug :
    (saveModelLines
        { source := "", pattern := "p", specialTokens := [],
          tokenMerges := [((97, 97), 256)] }).get? 1 = some "" ∧
    TokenizerState.pattern
        { source := "", pattern := "p", specialTokens := [],
          tokenMerges := [((97, 97), 256)] } ≠ "" := by
  constructor
  · rfl
  · decide

/-- C10: a merge with a pair absent from the sequence returns the sequence
unchanged; a merge with a pair present returns a strictly shorter
sequence; consequently fuel equal to the sequence length always suffices
for the encode loop (every extra fuel gives the same result), so encoding
terminates on every input. -/
theorem claim10_merge_length_termination :
    (∀ (ids : List Nat) (p : Nat × Nat) (t : Nat),
      hasAdjPair p ids = false → merge ids p t = ids) ∧
    (∀ (ids : List Nat) (p : Nat × Nat) (t : Nat),
      hasAdjPair p ids = true → (merge ids p t).length < ids.length) ∧
    (∀ (m : List ((Nat × Nat) × Nat)) (fuel : Nat) (ids : List Nat),
      ids.length ≤ fuel → encodeLoop m fuel ids = encodeIds m ids) :=
  ⟨merge_eq_of_not_adj, merge_length_lt, encodeLoop_fuel_ge⟩

theorem claim10_witness :
    (merge [97, 97, 97] (97, 97) 256).length <
      ([97, 97, 97] : List Nat).length :=
  claim10_merge_length_termination.2.1 [97, 97, 97] (97, 97) 256 (by decide)
